import Mathlib

/-!
Verification of the planning and dependency-resolution subsystem of the
semantic-kernel-orchestrator repository.

Python strings are modelled as lists of characters (abbrev Str), Python
str methods (lower, replace, split, join, substring tests) as executable
functions on such lists, Python dicts and sets as association lists in
insertion order, and fallible construction (pydantic validation plus
raised exceptions) as the Except monad.  Machine integers are modelled
as Int.  The externally produced UUID and timestamp used in plan construction
are taken as parameters.
-/

/-- A Python string, modelled as its list of characters. -/
abbrev Str := List Char

/-- The apostrophe character (written via its code point). -/
def apos : Char := Char.ofNat 39

namespace SKO

/-- Task priority levels, from src/core/types.py (TaskPriority). -/
inductive TaskPriority where
  | low
  | medium
  | high
  | urgent
deriving DecidableEq, Repr

/-- Task status values, from src/core/types.py (TaskStatus). -/
inductive TaskStatus where
  | pending
  | in_progress
  | completed
  | failed
deriving DecidableEq, Repr

/-- A task, from src/core/types.py (Task).  metadata (Dict[str, Any]) is
modelled as an association list of string pairs. -/
structure Task where
  id : Str
  title : Str
  description : Str
  priority : TaskPriority
  status : TaskStatus
  agent_type : Str
  required_tools : List Str
  estimated_duration : Option Int
  dependencies : List Str
  metadata : List (Str × Str)
deriving DecidableEq, Repr

/-- A plan, from src/core/types.py (Plan). -/
structure Plan where
  id : Str
  user_query : Str
  tasks : List Task
  estimated_total_duration : Option Int
  created_at : Str
deriving DecidableEq, Repr

/-- Python s.lower(), charwise. -/
def pyLower (s : Str) : Str := s.map Char.toLower

/-- Python s.replace(pat, rep), fuelled so that the recursion is
structural: the fuel starts at the length of the string, which never
runs out because every step consumes at least one character. -/
def pyReplaceAux (pat rep : Str) : Nat → Str → Str
  | _, [] => []
  | 0, s => s
  | fuel + 1, c :: cs =>
    if pat ≠ [] ∧ pat.isPrefixOf (c :: cs) then
      rep ++ pyReplaceAux pat rep fuel ((c :: cs).drop pat.length)
    else
      c :: pyReplaceAux pat rep fuel cs

/-- Python s.replace(pat, rep): replace every non-overlapping occurrence
of pat, scanning left to right.  All call sites in the source use a
non-empty pattern; for an empty pattern this model returns s unchanged. -/
def pyReplace (pat rep s : Str) : Str := pyReplaceAux pat rep s.length s

/-- Python s.split(sep-char): split at every occurrence of the
separator, keeping empty pieces (so the result is always non-empty). -/
def splitOnHyphen : Str → List Str
  | [] => [[]]
  | c :: cs =>
    if c = '-' then [] :: splitOnHyphen cs
    else
      match splitOnHyphen cs with
      | [] => [[c]]
      | g :: gs => (c :: g) :: gs

/-- Python sep.join(pieces) with separator the single hyphen. -/
def joinHyphen : List Str → Str
  | [] => []
  | [g] => g
  | g :: g2 :: gs => g ++ '-' :: joinHyphen (g2 :: gs)

/-- The Python idiom sep.join(filter(None, s.split(sep))) used by both
_generate_task_id and normalize_id: split on hyphens, drop the empty
pieces, rejoin with single hyphens. -/
def hyphenCleanup (s : Str) : Str :=
  joinHyphen ((splitOnHyphen s).filter (fun g => decide (g ≠ [])))

/-- Python p in s for strings: p occurs as a contiguous substring of s. -/
def isSubstr : Str → Str → Bool
  | p, [] => p.isEmpty
  | p, s@(_ :: rest) => p.isPrefixOf s || isSubstr p rest

/-- PlannerAgent._generate_task_id: lower-case the title, map every
non-alphanumeric character to a hyphen, then join the non-empty pieces
of the hyphen split with single hyphens. -/
def generate_task_id (title : Str) : Str :=
  let lowered := pyLower title
  let mapped := lowered.map (fun c => if c.isAlphanum then c else '-')
  hyphenCleanup mapped

/-- The dependency graph built by PlannerAgent._has_circular_dependencies:
a Python dict comprehension mapping each task id to its dependency list,
where a repeated id keeps the dependencies of the last task carrying it,
and an id that names no task has no outgoing edges. -/
def dictGet (tasks : List Task) (node : Str) : List Str :=
  match tasks.reverse.find? (fun t => t.id == node) with
  | some t => t.dependencies
  | none => []

/-- Every node the traversal can ever touch: all task ids together with
all dependency strings (deduplicated, giving a finite universe used to
bound the recursion depth of the DFS). -/
def allNodes (tasks : List Task) : List Str :=
  ((tasks.map (fun t => t.id)) ++ (tasks.map (fun t => t.dependencies)).flatten).dedup

/-- The for-loop over graph.get(node, []) inside has_cycle: explore each
neighbour with the given one-step explorer, threading the visited set
and short-circuiting on the first cycle found. -/
def dfsChildren (step : Str → List Str → Bool × List Str) :
    List Str → List Str → Bool × List Str
  | [], visited => (false, visited)
  | n :: rest, visited =>
    let r := step n visited
    if r.1 then r else dfsChildren step rest r.2

/-- The recursive has_cycle closure of _has_circular_dependencies:
a node on the recursion stack signals a cycle, a visited node is skipped,
otherwise the node is marked visited and pushed on the stack while its
neighbours are explored.  visited is threaded (Python mutates a shared
set); the recursion stack is passed down (it is restored on every false
return and irrelevant on a true return).  The fuel argument only bounds
the recursion depth; it is started strictly above the size of the node
universe, which the completeness proof shows is never exhausted. -/
def dfsNode (g : Str → List Str) : Nat → Str → List Str → List Str → Bool × List Str
  | 0, _, visited, _ => (false, visited)
  | fuel + 1, node, visited, recStack =>
    if node ∈ recStack then (true, visited)
    else if node ∈ visited then (false, visited)
    else dfsChildren (fun n v => dfsNode g fuel n v (node :: recStack))
      (g node) (node :: visited)

/-- Fuel that the completeness proof shows is never exhausted: one more
than the number of distinct nodes. -/
def fuelFor (tasks : List Task) : Nat := (allNodes tasks).length + 1

/-- The outer for-loop of _has_circular_dependencies over the graph
keys, skipping nodes already visited and returning true on the first
cycle found. -/
def hasCircularAux (tasks : List Task) : List Str → List Str → Bool
  | [], _ => false
  | tid :: rest, visited =>
    if tid ∈ visited then hasCircularAux tasks rest visited
    else
      let r := dfsNode (dictGet tasks) (fuelFor tasks) tid visited []
      if r.1 then true else hasCircularAux tasks rest r.2

/-- PlannerAgent._has_circular_dependencies. -/
def hasCircularDependencies (tasks : List Task) : Bool :=
  hasCircularAux tasks (tasks.map (fun t => t.id)) []

/-- The local normalize_id helper of PlannerAgent.validate_plan:
lower-case, rewrite apostrophe-s to s, drop remaining apostrophes,
rewrite hyphen-s-hyphen to a single hyphen, rewrite corporations to
corporation, collapse double hyphens once, then rejoin the non-empty
pieces of the hyphen split. -/
def normalize_id (idStr : Str) : Str :=
  let n := pyLower idStr
  let n := pyReplace (apos :: ['s']) ['s'] n
  let n := pyReplace [apos] [] n
  let n := pyReplace ['-', 's', '-'] ['-'] n
  let n := pyReplace "corporations".toList "corporation".toList n
  let n := pyReplace ['-', '-'] ['-'] n
  hyphenCleanup n

/-- The matching condition validate_plan applies between an unresolved
dependency string and an existing task id: normalized equality, a
normalized substring either way, or a raw substring either way. -/
def matchIds (depId existingId : Str) : Bool :=
  let nd := normalize_id depId
  let ne := normalize_id existingId
  nd == ne || isSubstr nd ne || isSubstr ne nd ||
    isSubstr depId existingId || isSubstr existingId depId

/-- The inner for-loop over existing task ids: first match wins. -/
def findMatch (depId : Str) : List Str → Option Str
  | [] => none
  | e :: es => if matchIds depId e then some e else findMatch depId es

/-- The dependency loop of validate_plan for one task: iterate over the
snapshot of the dependency list taken when the loop started (Python
iterates the original list object even though the attribute is rebound),
repairing the current list in place on a match (every occurrence equal
to the unresolved string is rewritten) and recording the unresolved
strings that match nothing.  Returns the final dependency list and the
unresolved strings in iteration order. -/
def repairDeps (taskIds : List Str) : List Str → List Str → List Str × List Str
  | [], current => (current, [])
  | d :: ds, current =>
    if d ∈ taskIds then repairDeps taskIds ds current
    else
      match findMatch d taskIds with
      | some e => repairDeps taskIds ds (current.map (fun x => if x == d then e else x))
      | none =>
        let r := repairDeps taskIds ds current
        (r.1, d :: r.2)

/-- The error message recorded for an unresolved dependency. -/
def unresolvedMsg (title dep : Str) : Str :=
  "Task ".toList ++ [apos] ++ title ++ [apos] ++
    " depends on non-existent task ID: ".toList ++ dep

/-- The error message recorded when a cycle is detected. -/
def circularMsg : Str := "Circular dependencies detected in task plan".toList

/-- The warning recorded when the duration sum exceeds 480 minutes. -/
def durationMsg : Str :=
  "Plan duration exceeds 8 hours - consider breaking into smaller chunks".toList

/-- Per-task outcome of the dependency-repair loop: the task with its
(possibly rewritten) dependencies, and the error messages it produced. -/
def repairTask (taskIds : List Str) (t : Task) : Task × List Str :=
  let r := repairDeps taskIds t.dependencies t.dependencies
  ({ t with dependencies := r.1 }, r.2.map (fun d => unresolvedMsg t.title d))

/-- The result dict of validate_plan. -/
structure ValidationResult where
  valid : Bool
  errors : List Str
  warnings : List Str
deriving DecidableEq, Repr

/-- PlannerAgent.validate_plan.  The in-place mutation of the tasks is
modelled by returning the updated plan next to the result: cycle check
on the original dependencies, then per-task dependency repair against
the set of task ids (modelled as the id list deduplicated, iterated in
a fixed order), then the duration warning. -/
def validatePlanFull (plan : Plan) : ValidationResult × Plan :=
  let circ := hasCircularDependencies plan.tasks
  let taskIds := (plan.tasks.map (fun t => t.id)).dedup
  let newTasks := plan.tasks.map (fun t => (repairTask taskIds t).1)
  let depErrors := (plan.tasks.map (fun t => (repairTask taskIds t).2)).flatten
  let totalDuration := plan.tasks.foldl (fun s t => s + t.estimated_duration.getD 0) (0 : Int)
  ({ valid := !circ && depErrors.isEmpty,
     errors := (if circ then [circularMsg] else []) ++ depErrors,
     warnings := if totalDuration > 480 then [durationMsg] else [] },
   { plan with tasks := newTasks })

/-- Plan.get_ready_tasks from src/core/types.py: the set of completed
task ids, then the pending tasks all of whose dependencies are in it,
in plan order. -/
def getReadyTasks (p : Plan) : List Task :=
  let completedIds := (p.tasks.filter (fun t => t.status == TaskStatus.completed)).map
    (fun t => t.id)
  p.tasks.filter (fun t =>
    t.status == TaskStatus.pending &&
      t.dependencies.all (fun d => decide (d ∈ completedIds)))

/-- A raw task as produced by the external text generator, before
pydantic validation: every field possibly missing. -/
structure RawTask where
  title : Option Str
  description : Option Str
  priority : Option Str
  agent_type : Option Str
  required_tools : Option (List Str)
  estimated_duration : Option Int
  dependencies : Option (List Str)
deriving DecidableEq, Repr

/-- The raw planner response before validation. -/
structure RawPlannerResponse where
  tasks : List RawTask
  summary : Option Str
  estimated_total_duration : Option Int
deriving DecidableEq, Repr

/-- A validated TaskCreateRequest from src/planner/schemas.py. -/
structure TaskCreateRequest where
  title : Str
  description : Str
  priority : TaskPriority
  agent_type : Str
  required_tools : List Str
  estimated_duration : Int
  dependencies : List Str
deriving DecidableEq, Repr

/-- A validated PlannerResponse from src/planner/schemas.py. -/
structure PlannerResponse where
  tasks : List TaskCreateRequest
  summary : Str
  estimated_total_duration : Int
deriving DecidableEq, Repr

/-- Pydantic validation of the priority field: default medium, otherwise
one of the four literals. -/
def parsePriority (s : Option Str) : Except Str TaskPriority :=
  match s with
  | none => .ok .medium
  | some p =>
    if p == "low".toList then .ok .low
    else if p == "medium".toList then .ok .medium
    else if p == "high".toList then .ok .high
    else if p == "urgent".toList then .ok .urgent
    else .error "invalid priority".toList

/-- Pydantic validation of one raw task against TaskCreateRequest:
title and description required with length caps, agent_type required,
tools and dependencies defaulting to empty, estimated_duration
defaulting to 30 and otherwise constrained to 1..480.  The first
failing constraint aborts with an error. -/
def parseTask (r : RawTask) : Except Str TaskCreateRequest :=
  match r.title with
  | none => .error "field required: title".toList
  | some title =>
    if title.length ≤ 100 then
      match r.description with
      | none => .error "field required: description".toList
      | some description =>
        if description.length ≤ 500 then
          match parsePriority r.priority with
          | .error e => .error e
          | .ok priority =>
            match r.agent_type with
            | none => .error "field required: agent_type".toList
            | some agentType =>
              match r.estimated_duration with
              | none =>
                .ok { title := title, description := description,
                      priority := priority, agent_type := agentType,
                      required_tools := r.required_tools.getD [],
                      estimated_duration := 30,
                      dependencies := r.dependencies.getD [] }
              | some d =>
                if 1 ≤ d ∧ d ≤ 480 then
                  .ok { title := title, description := description,
                        priority := priority, agent_type := agentType,
                        required_tools := r.required_tools.getD [],
                        estimated_duration := d,
                        dependencies := r.dependencies.getD [] }
                else .error "estimated_duration out of range".toList
        else .error "description too long".toList
    else .error "title too long".toList

/-- Pydantic validation of the whole planner response: every task must
validate, summary required with a length cap, total duration required
and at least 1. -/
def parsePlannerResponse (r : RawPlannerResponse) : Except Str PlannerResponse :=
  match r.tasks.mapM parseTask with
  | .error e => .error e
  | .ok tasks =>
    match r.summary with
    | none => .error "field required: summary".toList
    | some s =>
      if s.length ≤ 200 then
        match r.estimated_total_duration with
        | none => .error "field required: estimated_total_duration".toList
        | some d =>
          if 1 ≤ d then
            .ok { tasks := tasks, summary := s, estimated_total_duration := d }
          else .error "estimated_total_duration out of range".toList
      else .error "summary too long".toList

/-- The dependency resolution of PlannerAgent._convert_to_plan: scan the
title-to-id map in insertion order and return the generated id of the
first title whose generated id equals the dependency string verbatim
(the two compared forms in the source are both that generated id);
otherwise keep the dependency unchanged. -/
def resolveDepBuild (titles : List Str) (dep : Str) : Str :=
  match titles.find? (fun ttl => generate_task_id ttl == dep) with
  | some ttl => generate_task_id ttl
  | none => dep

/-- PlannerAgent._convert_to_plan.  The uuid and timestamp come from
outside, taken as parameters. -/
def convertToPlan (planId createdAt userQuery : Str) (resp : PlannerResponse) : Plan :=
  let titles := resp.tasks.map (fun t => t.title)
  { id := planId,
    user_query := userQuery,
    tasks := resp.tasks.map (fun tr =>
      { id := generate_task_id tr.title,
        title := tr.title,
        description := tr.description,
        priority := tr.priority,
        status := .pending,
        agent_type := tr.agent_type,
        required_tools := tr.required_tools,
        estimated_duration := some tr.estimated_duration,
        dependencies := tr.dependencies.map (resolveDepBuild titles),
        metadata := [("created_by".toList, "planner_agent".toList)] }),
    estimated_total_duration := some resp.estimated_total_duration,
    created_at := createdAt }

/-- PlannerAgent.create_plan after the LLM round-trip: validate the raw
payload, then convert; any validation failure aborts the whole
construction before a Plan value exists. -/
def createPlan (planId createdAt userQuery : Str) (raw : RawPlannerResponse) :
    Except Str Plan :=
  match parsePlannerResponse raw with
  | .error e => .error e
  | .ok resp => .ok (convertToPlan planId createdAt userQuery resp)

/-! ### Definitions written from the spec, for refinement comparisons -/

/-- Collapse every run of consecutive hyphens to a single hyphen
(following the spec words for the task-ID generator). -/
def collapseHyphens : Str → Str
  | [] => []
  | [c] => [c]
  | c :: d :: t =>
    if c = '-' ∧ d = '-' then collapseHyphens (d :: t)
    else c :: collapseHyphens (d :: t)

/-- Strip a trailing run of hyphens. -/
def trailingStrip (s : Str) : Str :=
  (s.reverse.dropWhile (fun c => c == '-')).reverse

/-- Strip leading and trailing hyphens (following the spec words). -/
def stripHyphens (s : Str) : Str :=
  trailingStrip (s.dropWhile (fun c => c == '-'))

/-- Written from the spec words for the task-ID generator: lower-case
the title; map every character that is not alphanumeric to a hyphen;
collapse consecutive hyphens; strip leading and trailing hyphens. -/
def specGenerateId (title : Str) : Str :=
  stripHyphens (collapseHyphens
    ((pyLower title).map (fun c => if c.isAlphanum then c else '-')))

/-! ### Semantic notions for the dependency graph -/

/-- The edge relation of the dependency graph a task list induces:
an edge from id a to id b when b occurs in the dependency list the
graph dict associates with a. -/
def edgeOf (g : Str → List Str) (a b : Str) : Prop := b ∈ g a

/-- A nonempty dependency cycle through a: a is reachable from itself
in one or more edges. -/
def HasCycle (g : Str → List Str) : Prop :=
  ∃ a, Relation.TransGen (edgeOf g) a a

/-- The recursion stack is a descending chain of edges: each entry was
reached from the entry below it. -/
def StackOK (g : Str → List Str) : List Str → Prop
  | [] => True
  | [_] => True
  | a :: b :: t => a ∈ g b ∧ StackOK g (b :: t)

/-- The node under exploration was reached from the top of the stack
(trivially true for a root call with an empty stack). -/
def FromTop (g : Str → List Str) (recStack : List Str) (node : Str) : Prop :=
  match recStack with
  | [] => True
  | p :: _ => node ∈ g p

/-- Some cycle is reachable from x. -/
def CanReachCycle (g : Str → List Str) (x : Str) : Prop :=
  ∃ a, Relation.ReflTransGen (edgeOf g) x a ∧ Relation.TransGen (edgeOf g) a a

/-- The nodes of the universe not yet visited, the measure showing the
DFS fuel is never exhausted. -/
def freeCount (u visited : List Str) : Nat :=
  (u.filter (fun x => decide (x ∉ visited))).length

/-- The black-node invariant of the DFS: every visited node not on the
recursion stack cannot reach any cycle. -/
def NoEscape (g : Str → List Str) (visited recStack : List Str) : Prop :=
  ∀ x ∈ visited, x ∉ recStack → ¬CanReachCycle g x

/-- A raw task that pydantic rejects for one of the reasons the spec
names: a missing required field, or an out-of-range duration. -/
def RawMalformed (r : RawTask) : Prop :=
  r.title = none ∨ r.description = none ∨ r.agent_type = none ∨
    (∃ d, r.estimated_duration = some d ∧ (d < 1 ∨ 480 < d))

/-! ### Concrete inputs used by witnesses and counterexamples -/

/-- A minimal task used to build concrete plans. -/
def mkTask (i : Str) (deps : List Str) : Task :=
  { id := i, title := i, description := [], priority := .medium,
    status := .pending, agent_type := "sales_assistant".toList,
    required_tools := [], estimated_duration := none,
    dependencies := deps, metadata := [] }

/-- The raw planner output of the C1 end-to-end scenario: task 2 names
its dependency by task 1 title in its original casing. -/
def c1Response : PlannerResponse :=
  { tasks := [
      { title := "Retrieve customer data".toList,
        description := "Pull customer information".toList,
        priority := .high, agent_type := "sales_assistant".toList,
        required_tools := ["crm_api".toList], estimated_duration := 10,
        dependencies := [] },
      { title := "Send follow-up email".toList,
        description := "Send the follow-up".toList,
        priority := .medium, agent_type := "sales_assistant".toList,
        required_tools := ["email_calendar".toList], estimated_duration := 15,
        dependencies := ["Retrieve Customer Data".toList] }],
    summary := "Retrieve and follow up".toList,
    estimated_total_duration := 25 }

/-- The plan built from the C1 scenario. -/
def c1Plan : Plan := convertToPlan [] [] "get customer data".toList c1Response

/-- The canonical id of the C2 scenario. -/
def acmeId : Str := "acme-corporations-onboarding".toList

/-- The C2 dependency reference exactly as the claim words it: title
casing with spaces and a possessive apostrophe. -/
def c2RefRaw : Str := "Acme Corporation".toList ++ apos :: "s onboarding".toList

/-- The slug-shaped variant of the C2 reference: hyphen-separated with
the possessive apostrophe kept. -/
def c2RefSlug : Str := "acme-corporation".toList ++ apos :: "s-onboarding".toList

/-- A plan holding the C2 canonical id and a task depending on it via
the given reference string. -/
def c2PlanWith (r : Str) : Plan :=
  { id := [], user_query := [], tasks := [
      mkTask acmeId [],
      mkTask "schedule-follow-up".toList [r]],
    estimated_total_duration := none, created_at := [] }

/-- A two-task plan whose tasks depend on each other. -/
def cycPlan : Plan :=
  { id := [], user_query := [], tasks := [
      mkTask "a".toList ["b".toList],
      mkTask "b".toList ["a".toList]],
    estimated_total_duration := none, created_at := [] }

/-- A raw task missing its required title. -/
def c5RawTask : RawTask :=
  { title := none, description := some "d".toList, priority := none,
    agent_type := some "sales_assistant".toList, required_tools := none,
    estimated_duration := none, dependencies := none }

/-- A raw planner response whose only task is missing its title. -/
def c5Raw : RawPlannerResponse :=
  { tasks := [c5RawTask],
    summary := some "s".toList, estimated_total_duration := some 10 }

/-! ### Character-level lemmas -/

theorem toNat_ofNat_valid {n : Nat} (h : n.isValidChar) : (Char.ofNat n).toNat = n := by
  simp only [Char.ofNat, dif_pos h, Char.ofNatAux, Char.toNat]
  rfl

theorem toLower_toNat (c : Char) :
    c.toLower.toNat = if 65 ≤ c.toNat ∧ c.toNat ≤ 90 then c.toNat + 32 else c.toNat := by
  by_cases h : 65 ≤ c.toNat ∧ c.toNat ≤ 90
  · rw [if_pos h]
    show (if c.toNat ≥ 65 ∧ c.toNat ≤ 90 then Char.ofNat (c.toNat + 32) else c).toNat = _
    rw [if_pos h]
    exact toNat_ofNat_valid (Or.inl (by omega))
  · rw [if_neg h]
    show (if c.toNat ≥ 65 ∧ c.toNat ≤ 90 then Char.ofNat (c.toNat + 32) else c).toNat = _
    rw [if_neg h]

theorem char_eq_of_toNat_eq {a b : Char} (h : a.toNat = b.toNat) : a = b := by
  have h2 := congrArg Char.ofNat h
  rwa [Char.ofNat_toNat, Char.ofNat_toNat] at h2

theorem toLower_idem (c : Char) : c.toLower.toLower = c.toLower := by
  apply char_eq_of_toNat_eq
  rw [toLower_toNat c.toLower, toLower_toNat c]
  split_ifs <;> omega

theorem u32le {a b : UInt32} : a ≤ b ↔ a.toNat ≤ b.toNat := by
  rw [UInt32.le_def, BitVec.le_def]; rfl

theorem isUpper_iff {c : Char} : c.isUpper = true ↔ 65 ≤ c.toNat ∧ c.toNat ≤ 90 := by
  simp [Char.isUpper, u32le]
  rfl

theorem isLower_iff {c : Char} : c.isLower = true ↔ 97 ≤ c.toNat ∧ c.toNat ≤ 122 := by
  simp [Char.isLower, u32le]
  rfl

theorem isDigit_iff {c : Char} : c.isDigit = true ↔ 48 ≤ c.toNat ∧ c.toNat ≤ 57 := by
  simp [Char.isDigit, u32le]
  rfl

theorem isAlphanum_iff {c : Char} : c.isAlphanum = true ↔
    (65 ≤ c.toNat ∧ c.toNat ≤ 90) ∨ (97 ≤ c.toNat ∧ c.toNat ≤ 122) ∨
    (48 ≤ c.toNat ∧ c.toNat ≤ 57) := by
  simp [Char.isAlphanum, Char.isAlpha, isUpper_iff, isLower_iff, isDigit_iff, or_assoc]

theorem isAlphanum_toLower (c : Char) : c.toLower.isAlphanum = c.isAlphanum := by
  have ht := toLower_toNat c
  by_cases h : c.toLower.isAlphanum = true <;> by_cases h2 : c.isAlphanum = true
  · rw [h, h2]
  · rw [isAlphanum_iff] at h h2
    exfalso
    split_ifs at ht <;> omega
  · rw [isAlphanum_iff] at *
    exfalso
    apply h
    split_ifs at ht <;> omega
  · simp only [Bool.not_eq_true] at h h2
    rw [h, h2]

theorem toLower_hyphen : Char.toLower '-' = '-' := by decide

/-! ### Split, join, collapse and strip lemmas -/

theorem splitOnHyphen_ne_nil (s : Str) : splitOnHyphen s ≠ [] := by
  cases s with
  | nil => simp [splitOnHyphen]
  | cons c cs =>
    by_cases hc : c = '-'
    · simp [splitOnHyphen, hc]
    · simp only [splitOnHyphen, if_neg hc]
      match h : splitOnHyphen cs with
      | [] => simp
      | g :: gs => simp

theorem splitOnHyphen_hyphen (s : Str) : splitOnHyphen ('-' :: s) = [] :: splitOnHyphen s := by
  simp [splitOnHyphen]

theorem splitOnHyphen_cons_of_ne {c : Char} (hc : c ≠ '-') {s : Str} {g : Str}
    {gs : List Str} (h : splitOnHyphen s = g :: gs) :
    splitOnHyphen (c :: s) = (c :: g) :: gs := by
  simp only [splitOnHyphen, if_neg hc, h]

theorem joinHyphen_cons_head (c : Char) (x : Str) (X : List Str) :
    joinHyphen ((c :: x) :: X) = c :: joinHyphen (x :: X) := by
  cases X <;> simp [joinHyphen]

theorem joinHyphen_nil_cons (X : List Str) :
    joinHyphen ([] :: X) = if X = [] then [] else '-' :: joinHyphen X := by
  cases X <;> simp [joinHyphen]

theorem joinHyphen_ne_nil {X : List Str} (hne : X ≠ []) (h : ∀ x ∈ X, x ≠ []) :
    joinHyphen X ≠ [] := by
  match X with
  | [] => exact absurd rfl hne
  | [x] =>
    simpa [joinHyphen] using h x (by simp)
  | x :: y :: X =>
    have hx : x ≠ [] := h x (by simp)
    simp only [joinHyphen]
    intro hcontra
    exact hx (List.append_eq_nil.mp hcontra).1

theorem filter_ne_nil_mem {gs : List Str} {x : Str}
    (hx : x ∈ gs.filter (fun g => decide (g ≠ []))) : x ≠ [] := by
  have := (List.mem_filter.mp hx).2
  simpa using this

theorem cleanup_nil : hyphenCleanup [] = [] := rfl

theorem cleanup_hyphen (s : Str) : hyphenCleanup ('-' :: s) = hyphenCleanup s := by
  simp [hyphenCleanup, splitOnHyphen_hyphen]

theorem cleanup_dropWhile (s : Str) :
    hyphenCleanup (s.dropWhile (fun c => c == '-')) = hyphenCleanup s := by
  induction s with
  | nil => rfl
  | cons c cs ih =>
    by_cases hc : c = '-'
    · subst hc
      rw [List.dropWhile_cons_of_pos (by simp), ih, cleanup_hyphen]
    · rw [List.dropWhile_cons_of_neg (by simpa using hc)]

theorem cleanup_cons_cons {c d : Char} (hc : c ≠ '-') (hd : d ≠ '-') (u : Str) :
    hyphenCleanup (c :: d :: u) = c :: hyphenCleanup (d :: u) := by
  obtain ⟨g, gs, hgs⟩ : ∃ g gs, splitOnHyphen u = g :: gs := by
    match h : splitOnHyphen u with
    | [] => exact absurd h (splitOnHyphen_ne_nil u)
    | g :: gs => exact ⟨g, gs, rfl⟩
  have h1 := splitOnHyphen_cons_of_ne hd hgs
  have h2 := splitOnHyphen_cons_of_ne hc h1
  simp only [hyphenCleanup, h1, h2]
  rw [List.filter_cons_of_pos (by simp), List.filter_cons_of_pos (by simp)]
  exact joinHyphen_cons_head c (d :: g) _

theorem cleanup_single {c : Char} (hc : c ≠ '-') : hyphenCleanup [c] = [c] := by
  have h1 : splitOnHyphen [c] = [[c]] := splitOnHyphen_cons_of_ne hc rfl
  simp [hyphenCleanup, h1, joinHyphen]

theorem cleanup_cons_hyphen {c : Char} (hc : c ≠ '-') (u : Str) :
    hyphenCleanup (c :: '-' :: u) =
      c :: (if hyphenCleanup u = [] then [] else '-' :: hyphenCleanup u) := by
  have h1 : splitOnHyphen ('-' :: u) = [] :: splitOnHyphen u := splitOnHyphen_hyphen u
  have h2 : splitOnHyphen (c :: '-' :: u) = [c] :: splitOnHyphen u :=
    splitOnHyphen_cons_of_ne hc h1
  have hfc : (([c] : Str) :: splitOnHyphen u).filter (fun g => decide (g ≠ [])) =
      [c] :: (splitOnHyphen u).filter (fun g => decide (g ≠ [])) :=
    List.filter_cons_of_pos (by simp)
  unfold hyphenCleanup
  rw [h2, hfc]
  cases hNS : (splitOnHyphen u).filter (fun g => decide (g ≠ [])) with
  | nil => simp [joinHyphen]
  | cons y ys =>
    have hjoin : joinHyphen (y :: ys) ≠ [] := by
      apply joinHyphen_ne_nil (by simp)
      intro x hx
      exact filter_ne_nil_mem (hNS ▸ hx)
    rw [joinHyphen_cons_head c [] (y :: ys), joinHyphen_nil_cons]
    simp [hjoin]

theorem cleanup_all_hyphen {s : Str} (h : ∀ x ∈ s, x = '-') : hyphenCleanup s = [] := by
  induction s with
  | nil => rfl
  | cons c cs ih =>
    have hc : c = '-' := h c (by simp)
    subst hc
    rw [cleanup_hyphen]
    exact ih (fun x hx => h x (by simp [hx]))

theorem collapseHyphens_cons {c : Char} (hc : c ≠ '-') (s : Str) :
    collapseHyphens (c :: s) = c :: collapseHyphens s := by
  cases s with
  | nil => rfl
  | cons d t =>
    simp only [collapseHyphens]
    rw [if_neg]
    intro hcontra
    exact hc hcontra.1

theorem dropWhile_head_false {p : Char → Bool} :
    ∀ {u : Str} {a : Char} {v : Str}, u.dropWhile p = a :: v → p a = false := by
  intro u
  induction u with
  | nil => intro a v h; simp at h
  | cons x xs ih =>
    intro a v h
    by_cases hx : p x
    · rw [List.dropWhile_cons_of_pos hx] at h
      exact ih h
    · rw [List.dropWhile_cons_of_neg hx] at h
      cases h
      simpa using hx

theorem collapse_hyphen_dropWhile (u : Str) :
    collapseHyphens ('-' :: u) =
      '-' :: collapseHyphens (u.dropWhile (fun c => c == '-')) := by
  induction u with
  | nil => rfl
  | cons c cs ih =>
    by_cases hc : c = '-'
    · subst hc
      have : collapseHyphens ('-' :: '-' :: cs) = collapseHyphens ('-' :: cs) := by
        simp [collapseHyphens]
      rw [this, ih, List.dropWhile_cons_of_pos (by simp)]
    · have : collapseHyphens ('-' :: c :: cs) = '-' :: collapseHyphens (c :: cs) := by
        simp only [collapseHyphens]
        rw [if_neg]
        intro hcontra
        exact hc hcontra.2
      rw [this, List.dropWhile_cons_of_neg (by simpa using hc)]

theorem trailingStrip_nil : trailingStrip [] = [] := rfl

theorem trailingStrip_cons {c : Char} (hc : c ≠ '-') (x : Str) :
    trailingStrip (c :: x) = c :: trailingStrip x := by
  unfold trailingStrip
  rw [List.reverse_cons, List.dropWhile_append]
  by_cases h : (x.reverse.dropWhile fun c => c == '-').isEmpty
  · rw [if_pos h]
    rw [List.dropWhile_cons_of_neg (by simpa using hc)]
    rw [List.isEmpty_iff] at h
    simp [h]
  · rw [if_neg h]
    simp

theorem trailingStrip_hyphen_cons (x : Str) :
    trailingStrip ('-' :: x) =
      if trailingStrip x = [] then [] else '-' :: trailingStrip x := by
  unfold trailingStrip
  rw [List.reverse_cons, List.dropWhile_append]
  by_cases h : (x.reverse.dropWhile fun c => c == '-').isEmpty
  · rw [if_pos h]
    rw [List.isEmpty_iff] at h
    simp [h]
  · rw [if_neg h]
    rw [List.isEmpty_iff] at h
    simp [h]

theorem stripHyphens_nil : stripHyphens [] = [] := rfl

theorem stripHyphens_hyphen (x : Str) : stripHyphens ('-' :: x) = stripHyphens x := by
  unfold stripHyphens
  rw [List.dropWhile_cons_of_pos (by simp)]

theorem stripHyphens_of_head_ne {c : Char} (hc : c ≠ '-') (x : Str) :
    stripHyphens (c :: x) = trailingStrip (c :: x) := by
  unfold stripHyphens
  rw [List.dropWhile_cons_of_neg (by simpa using hc)]

theorem stripCollapse_cons_cons {c d : Char} (hc : c ≠ '-') (hd : d ≠ '-') (u : Str) :
    stripHyphens (collapseHyphens (c :: d :: u)) =
      c :: stripHyphens (collapseHyphens (d :: u)) := by
  rw [collapseHyphens_cons hc, collapseHyphens_cons hd]
  rw [stripHyphens_of_head_ne hc, stripHyphens_of_head_ne hd, trailingStrip_cons hc]

theorem stripCollapse_single {c : Char} (hc : c ≠ '-') :
    stripHyphens (collapseHyphens [c]) = [c] := by
  show stripHyphens [c] = [c]
  rw [stripHyphens_of_head_ne hc, trailingStrip_cons hc, trailingStrip_nil]

theorem stripCollapse_cons_hyphen {c : Char} (hc : c ≠ '-') (u : Str) :
    stripHyphens (collapseHyphens (c :: '-' :: u)) =
      c :: (if stripHyphens (collapseHyphens (u.dropWhile (fun x => x == '-'))) = []
            then []
            else '-' :: stripHyphens (collapseHyphens (u.dropWhile (fun x => x == '-')))) := by
  rw [collapseHyphens_cons hc, collapse_hyphen_dropWhile]
  rw [stripHyphens_of_head_ne hc, trailingStrip_cons hc, trailingStrip_hyphen_cons]
  have hts : trailingStrip (collapseHyphens (u.dropWhile (fun x => x == '-'))) =
      stripHyphens (collapseHyphens (u.dropWhile (fun x => x == '-'))) := by
    cases hdu : u.dropWhile (fun x => x == '-') with
    | nil => rfl
    | cons a v =>
      have ha : (a == '-') = false := @dropWhile_head_false (fun x => x == '-') u a v hdu
      have ha2 : a ≠ '-' := by simpa using ha
      rw [collapseHyphens_cons ha2, stripHyphens_of_head_ne ha2]
  rw [hts]

theorem stripCollapse_hyphen (u : Str) :
    stripHyphens (collapseHyphens ('-' :: u)) =
      stripHyphens (collapseHyphens (u.dropWhile (fun x => x == '-'))) := by
  rw [collapse_hyphen_dropWhile, stripHyphens_hyphen]

theorem cleanup_eq_aux : ∀ (n : Nat) (s : Str), s.length ≤ n →
    hyphenCleanup s = stripHyphens (collapseHyphens s) := by
  intro n
  induction n with
  | zero =>
    intro s hs
    have hnil : s = [] := List.eq_nil_of_length_eq_zero (Nat.le_zero.mp hs)
    subst hnil
    rfl
  | succ n ih =>
    intro s hs
    cases s with
    | nil => rfl
    | cons c t =>
      have hlt : t.length ≤ n := by
        simpa using Nat.succ_le_succ_iff.mp (by simpa using hs)
      by_cases hc : c = '-'
      · subst hc
        rw [cleanup_hyphen, ← cleanup_dropWhile t, stripCollapse_hyphen]
        exact ih _ (le_trans ((List.dropWhile_sublist _).length_le) hlt)
      · cases t with
        | nil => rw [cleanup_single hc, stripCollapse_single hc]
        | cons d u =>
          by_cases hd : d = '-'
          · subst hd
            rw [cleanup_cons_hyphen hc, stripCollapse_cons_hyphen hc]
            have hlen : (u.dropWhile (fun x => x == '-')).length ≤ n :=
              le_trans ((List.dropWhile_sublist _).length_le)
                (le_trans (by simp) hlt)
            rw [← cleanup_dropWhile u, ih _ hlen]
          · rw [cleanup_cons_cons hc hd, stripCollapse_cons_cons hc hd, ih (d :: u) hlt]

theorem cleanup_eq_stripCollapse (s : Str) :
    hyphenCleanup s = stripHyphens (collapseHyphens s) :=
  cleanup_eq_aux s.length s le_rfl

theorem split_exists_cons (s : Str) : ∃ g gs, splitOnHyphen s = g :: gs := by
  match h : splitOnHyphen s with
  | [] => exact absurd h (splitOnHyphen_ne_nil s)
  | g :: gs => exact ⟨g, gs, rfl⟩

theorem mem_split_sub : ∀ {s g : Str}, g ∈ splitOnHyphen s → ∀ c ∈ g, c ∈ s := by
  intro s
  induction s with
  | nil =>
    intro g hg c hc
    simp [splitOnHyphen] at hg
    subst hg
    simp at hc
  | cons a as ih =>
    intro g hg c hc
    by_cases ha : a = '-'
    · subst ha
      rw [splitOnHyphen_hyphen] at hg
      rcases List.mem_cons.mp hg with h1 | h2
      · subst h1; simp at hc
      · exact List.mem_cons_of_mem _ (ih h2 c hc)
    · obtain ⟨g0, gs, hgs⟩ := split_exists_cons as
      rw [splitOnHyphen_cons_of_ne ha hgs] at hg
      rcases List.mem_cons.mp hg with h1 | h2
      · subst h1
        rcases List.mem_cons.mp hc with hca | hcg0
        · simp [hca]
        · refine List.mem_cons_of_mem _ (ih ?_ c hcg0)
          rw [hgs]
          exact List.mem_cons_self g0 gs
      · refine List.mem_cons_of_mem _ (ih ?_ c hc)
        rw [hgs]
        exact List.mem_cons_of_mem _ h2

theorem split_no_hyphen : ∀ {s g : Str}, g ∈ splitOnHyphen s → '-' ∉ g := by
  intro s
  induction s with
  | nil =>
    intro g hg
    simp [splitOnHyphen] at hg
    subst hg
    simp
  | cons a as ih =>
    intro g hg
    by_cases ha : a = '-'
    · subst ha
      rw [splitOnHyphen_hyphen] at hg
      rcases List.mem_cons.mp hg with h1 | h2
      · subst h1; simp
      · exact ih h2
    · obtain ⟨g0, gs, hgs⟩ := split_exists_cons as
      rw [splitOnHyphen_cons_of_ne ha hgs] at hg
      rcases List.mem_cons.mp hg with h1 | h2
      · subst h1
        intro hmem
        rcases List.mem_cons.mp hmem with h3 | h4
        · exact ha h3.symm
        · refine ih ?_ h4
          rw [hgs]
          exact List.mem_cons_self g0 gs
      · refine ih ?_
        rw [hgs]
        exact List.mem_cons_of_mem _ h2

theorem mem_joinHyphen {c : Char} : ∀ (X : List Str), c ∈ joinHyphen X →
    c = '-' ∨ ∃ x ∈ X, c ∈ x
  | [], h => by simp [joinHyphen] at h
  | [g], h => by
    right
    exact ⟨g, by simp, by simpa [joinHyphen] using h⟩
  | g :: g2 :: gs, h => by
    simp only [joinHyphen, List.mem_append, List.mem_cons] at h
    rcases h with hg | hc | hj
    · right; exact ⟨g, by simp, hg⟩
    · left; exact hc
    · rcases mem_joinHyphen (g2 :: gs) hj with hh | ⟨x, hx, hcx⟩
      · left; exact hh
      · right
        refine ⟨x, ?_, hcx⟩
        simpa using Or.inr (List.mem_cons.mp hx)

theorem split_of_no_hyphen : ∀ {x : Str}, '-' ∉ x → splitOnHyphen x = [x] := by
  intro x
  induction x with
  | nil => intro _; rfl
  | cons a as ih =>
    intro h
    have ha : a ≠ '-' := fun hcontra => h (by simp [hcontra])
    have has : '-' ∉ as := fun hcontra => h (List.mem_cons_of_mem _ hcontra)
    exact splitOnHyphen_cons_of_ne ha (ih has)

theorem split_append_hyphen : ∀ {x : Str}, '-' ∉ x → ∀ (r : Str),
    splitOnHyphen (x ++ '-' :: r) = x :: splitOnHyphen r := by
  intro x
  induction x with
  | nil =>
    intro _ r
    exact splitOnHyphen_hyphen r
  | cons a as ih =>
    intro h r
    have ha : a ≠ '-' := fun hcontra => h (by simp [hcontra])
    have has : '-' ∉ as := fun hcontra => h (List.mem_cons_of_mem _ hcontra)
    show splitOnHyphen (a :: (as ++ '-' :: r)) = (a :: as) :: splitOnHyphen r
    exact splitOnHyphen_cons_of_ne ha (ih has r)

theorem split_join : ∀ {X : List Str}, (∀ x ∈ X, '-' ∉ x) → X ≠ [] →
    splitOnHyphen (joinHyphen X) = X
  | [], _, hne => absurd rfl hne
  | [x], h, _ => by
    show splitOnHyphen x = [x]
    exact split_of_no_hyphen (h x (by simp))
  | x :: y :: X, h, _ => by
    show splitOnHyphen (x ++ '-' :: joinHyphen (y :: X)) = x :: y :: X
    rw [split_append_hyphen (h x (by simp)) (joinHyphen (y :: X))]
    rw [split_join (fun a ha => h a (List.mem_cons_of_mem _ ha)) (by simp)]

theorem cleanup_idem (s : Str) : hyphenCleanup (hyphenCleanup s) = hyphenCleanup s := by
  have hcs : hyphenCleanup s =
      joinHyphen ((splitOnHyphen s).filter (fun g => decide (g ≠ []))) := rfl
  cases hNS : (splitOnHyphen s).filter (fun g => decide (g ≠ [])) with
  | nil => rw [hcs, hNS]; rfl
  | cons y ys =>
    have hall : ∀ g ∈ (y :: ys), g ≠ [] ∧ '-' ∉ g := by
      intro g hg
      rw [← hNS] at hg
      exact ⟨filter_ne_nil_mem hg, split_no_hyphen (List.mem_filter.mp hg).1⟩
    rw [hcs, hNS]
    show joinHyphen ((splitOnHyphen (joinHyphen (y :: ys))).filter
      (fun g => decide (g ≠ []))) = joinHyphen (y :: ys)
    rw [split_join (fun x hx => (hall x hx).2) (by simp)]
    rw [List.filter_eq_self.mpr (fun a ha => by simpa using (hall a ha).1)]

theorem mapped_chars (title : Str) :
    ∀ c ∈ (pyLower title).map (fun c => if c.isAlphanum then c else '-'),
      c = '-' ∨ (c.isAlphanum = true ∧ c.toLower = c) := by
  intro c hc
  simp only [pyLower, List.map_map, List.mem_map, Function.comp] at hc
  obtain ⟨x, hx, hcx⟩ := hc
  by_cases ha : (Char.toLower x).isAlphanum = true
  · right
    rw [← hcx]
    rw [if_pos ha]
    exact ⟨ha, toLower_idem x⟩
  · left
    rw [← hcx, if_neg ha]

/-- C4: for every title, the task-ID generator returns the title
lower-cased with every non-alphanumeric character mapped to a hyphen,
consecutive hyphens collapsed and leading and trailing hyphens stripped
(the definition written from the spec words), and for a title of only
non-alphanumeric characters it returns the empty string.  Determinism
holds because generate_task_id is a pure function of its argument. -/
theorem generate_task_id_matches_spec (title : Str) :
    generate_task_id title = specGenerateId title ∧
      ((∀ c ∈ title, c.isAlphanum = false) → generate_task_id title = []) := by
  constructor
  · exact cleanup_eq_stripCollapse ((pyLower title).map (fun c => if c.isAlphanum then c else '-'))
  · intro h
    apply cleanup_all_hyphen
    intro x hx
    simp only [pyLower, List.map_map, List.mem_map, Function.comp] at hx
    obtain ⟨c, hc, hxc⟩ := hx
    have hna : (Char.toLower c).isAlphanum = false := by
      rw [isAlphanum_toLower]
      exact h c hc
    rw [← hxc, if_neg (by simp [hna])]

/-- Witness for C4 at the concrete title consisting of two exclamation
marks: the generator agrees with the spec description and returns the
empty string. -/
theorem generate_task_id_matches_spec_witness :
    generate_task_id ['!', '!'] = specGenerateId ['!', '!'] ∧
      generate_task_id ['!', '!'] = [] :=
  ⟨(generate_task_id_matches_spec ['!', '!']).1,
   (generate_task_id_matches_spec ['!', '!']).2 (by decide)⟩

/-- C10: the task-ID generator is idempotent: every generated slug is a
fixed point of the generator. -/
theorem generate_task_id_idem (title : Str) :
    generate_task_id (generate_task_id title) = generate_task_id title := by
  have hchars : ∀ c ∈ generate_task_id title,
      c = '-' ∨ (c.isAlphanum = true ∧ c.toLower = c) := by
    intro c hcg
    have hcg2 : c ∈ joinHyphen ((splitOnHyphen ((pyLower title).map
        (fun c => if c.isAlphanum then c else '-'))).filter (fun g => decide (g ≠ []))) := hcg
    rcases mem_joinHyphen _ hcg2 with h1 | ⟨x, hx, hcx⟩
    · left; exact h1
    · exact mapped_chars title c (mem_split_sub (List.mem_filter.mp hx).1 c hcx)
  show hyphenCleanup ((pyLower (generate_task_id title)).map
      (fun c => if c.isAlphanum then c else '-')) = generate_task_id title
  have h1 : pyLower (generate_task_id title) = generate_task_id title := by
    refine (List.map_congr_left ?_).trans (List.map_id _)
    intro a ha
    rcases hchars a ha with h | h
    · rw [h]
      exact toLower_hyphen
    · exact h.2
  rw [h1]
  have h2 : (generate_task_id title).map (fun c => if c.isAlphanum then c else '-') =
      generate_task_id title := by
    refine (List.map_congr_left ?_).trans (List.map_id _)
    intro a ha
    rcases hchars a ha with h | h
    · rw [h]
      simp
    · rw [if_pos h.1]
      rfl
  rw [h2]
  exact cleanup_idem _

/-! ### DFS cycle detection: visited-set monotonicity -/

theorem dfsChildren_visited_mono {step : Str → List Str → Bool × List Str}
    (hstep : ∀ n v, v ⊆ (step n v).2) :
    ∀ (ns : List Str) (v : List Str), v ⊆ (dfsChildren step ns v).2 := by
  intro ns
  induction ns with
  | nil => intro v; exact fun x hx => hx
  | cons n rest ih =>
    intro v
    simp only [dfsChildren]
    by_cases h : (step n v).1
    · rw [if_pos h]
      exact hstep n v
    · rw [if_neg h]
      exact (hstep n v).trans (ih (step n v).2)

theorem dfsNode_visited_mono (g : Str → List Str) :
    ∀ (fuel : Nat) (node : Str) (v rs : List Str), v ⊆ (dfsNode g fuel node v rs).2 := by
  intro fuel
  induction fuel with
  | zero => intro node v rs; exact fun x hx => hx
  | succ fuel ih =>
    intro node v rs
    simp only [dfsNode]
    by_cases h1 : node ∈ rs
    · rw [if_pos h1]
      exact fun x hx => hx
    · rw [if_neg h1]
      by_cases h2 : node ∈ v
      · rw [if_pos h2]
        exact fun x hx => hx
      · rw [if_neg h2]
        exact (List.subset_cons_self node v).trans
          (dfsChildren_visited_mono (fun n w => ih n w (node :: rs)) (g node) (node :: v))

/-! ### DFS soundness: a reported cycle is a real cycle -/

theorem rtg_of_stack {g : Str → List Str} :
    ∀ {t : List Str} {p node : Str}, StackOK g (p :: t) → node ∈ p :: t →
      Relation.ReflTransGen (edgeOf g) node p := by
  intro t
  induction t with
  | nil =>
    intro p node _ hmem
    rcases List.mem_cons.mp hmem with h | h
    · subst h; exact .refl
    · simp at h
  | cons b t2 ih =>
    intro p node hok hmem
    have hedge : edgeOf g b p := hok.1
    rcases List.mem_cons.mp hmem with h | h
    · subst h; exact .refl
    · exact .tail (ih hok.2 h) hedge

theorem cycle_of_stack_hit {g : Str → List Str} {rs : List Str} {node : Str}
    (hok : StackOK g rs) (hft : FromTop g rs node) (hmem : node ∈ rs) :
    HasCycle g := by
  cases rs with
  | nil => simp at hmem
  | cons p t =>
    have hedge : edgeOf g p node := hft
    exact ⟨node, Relation.TransGen.tail' (rtg_of_stack hok hmem) hedge⟩

theorem dfsChildren_sound {step : Str → List Str → Bool × List Str} {C : Prop} :
    ∀ (ns : List Str), (∀ n ∈ ns, ∀ v, (step n v).1 = true → C) →
      ∀ (v : List Str), (dfsChildren step ns v).1 = true → C := by
  intro ns
  induction ns with
  | nil => intro _ v h; simp [dfsChildren] at h
  | cons n rest ih =>
    intro hstep v h
    simp only [dfsChildren] at h
    by_cases h1 : (step n v).1
    · exact hstep n (by simp) v h1
    · rw [if_neg h1] at h
      exact ih (fun m hm w hw => hstep m (by simp [hm]) w hw) _ h

theorem dfsNode_sound (g : Str → List Str) :
    ∀ (fuel : Nat) (node : Str) (v rs : List Str),
      StackOK g rs → FromTop g rs node →
      (dfsNode g fuel node v rs).1 = true → HasCycle g := by
  intro fuel
  induction fuel with
  | zero => intro node v rs _ _ h; simp [dfsNode] at h
  | succ fuel ih =>
    intro node v rs hok hft h
    simp only [dfsNode] at h
    by_cases h1 : node ∈ rs
    · exact cycle_of_stack_hit hok hft h1
    · rw [if_neg h1] at h
      by_cases h2 : node ∈ v
      · rw [if_pos h2] at h; simp at h
      · rw [if_neg h2] at h
        have hok2 : StackOK g (node :: rs) := by
          cases rs with
          | nil => trivial
          | cons p t => exact ⟨hft, hok⟩
        refine dfsChildren_sound (g node) ?_ (node :: v) h
        intro n hn w hw
        exact ih n w (node :: rs) hok2 hn hw

theorem hasCircularAux_sound (tasks : List Task) :
    ∀ (ids : List Str) (v : List Str),
      hasCircularAux tasks ids v = true → HasCycle (dictGet tasks) := by
  intro ids
  induction ids with
  | nil => intro v h; simp [hasCircularAux] at h
  | cons tid rest ih =>
    intro v h
    simp only [hasCircularAux] at h
    by_cases h1 : tid ∈ v
    · rw [if_pos h1] at h
      exact ih _ h
    · rw [if_neg h1] at h
      by_cases h2 : (dfsNode (dictGet tasks) (fuelFor tasks) tid v []).1
      · exact dfsNode_sound _ _ _ _ _ (by simp [StackOK]) (by simp [FromTop]) h2
      · rw [if_neg h2] at h
        exact ih _ h

theorem edge_key {tasks : List Task} {a b : Str} (h : edgeOf (dictGet tasks) a b) :
    a ∈ tasks.map (fun t => t.id) := by
  unfold edgeOf dictGet at h
  cases hf : tasks.reverse.find? (fun t => t.id == a) with
  | none => rw [hf] at h; simp at h
  | some t =>
    have h1 := List.find?_some hf
    have h2 : t ∈ tasks.reverse := List.mem_of_find?_eq_some hf
    have h3 : t.id = a := by simpa using h1
    rw [← h3]
    exact List.mem_map_of_mem _ (List.mem_reverse.mp h2)

/-! ### DFS completeness: every real cycle is reported -/

theorem freeCount_le (u v : List Str) : freeCount u v ≤ u.length :=
  List.length_filter_le _ _

theorem freeCount_cons {u v : List Str} {a : Str} (hu : u.Nodup) (ha : a ∈ u) (hv : a ∉ v) :
    freeCount u (a :: v) + 1 = freeCount u v := by
  induction u with
  | nil => simp at ha
  | cons x xs ih =>
    have hnd := List.nodup_cons.mp hu
    unfold freeCount at *
    rw [List.filter_cons, List.filter_cons]
    rcases List.mem_cons.mp ha with h1 | h2
    · subst h1
      rw [if_neg (by simp), if_pos (by simpa using hv)]
      have hfe : xs.filter (fun y => decide (y ∉ a :: v)) =
          xs.filter (fun y => decide (y ∉ v)) := by
        apply List.filter_congr
        intro y hy
        have hya : y ≠ a := fun hcontra => hnd.1 (hcontra ▸ hy)
        simp [List.mem_cons, hya]
      rw [hfe]
      simp
    · have hax : a ≠ x := fun hcontra => hnd.1 (hcontra ▸ h2)
      have hsame : (decide (x ∉ a :: v) : Bool) = decide (x ∉ v) := by
        simp only [List.mem_cons, decide_eq_decide]
        constructor
        · intro h hx
          exact h (Or.inr hx)
        · intro h hc
          rcases hc with h3 | h3
          · exact hax h3.symm
          · exact h h3
      rw [hsame]
      by_cases hxv : x ∉ v
      · rw [if_pos (by simpa using hxv), if_pos (by simpa using hxv)]
        simp only [List.length_cons]
        have := ih hnd.2 h2
        omega
      · rw [if_neg (by simpa using hxv), if_neg (by simpa using hxv)]
        exact ih hnd.2 h2

theorem freeCount_mono {u v w : List Str} (h : v ⊆ w) :
    freeCount u w ≤ freeCount u v := by
  unfold freeCount
  rw [← List.countP_eq_length_filter, ← List.countP_eq_length_filter]
  apply List.countP_mono_left
  intro x _ hx
  simp only [decide_eq_true_eq] at hx ⊢
  exact fun hxv => hx (h hxv)

theorem crc_of_edge {g : Str → List Str} {a b : Str} (hedge : edgeOf g a b)
    (h : CanReachCycle g b) : CanReachCycle g a := by
  obtain ⟨c, h1, h2⟩ := h
  exact ⟨c, .head hedge h1, h2⟩

theorem crc_head {g : Str → List Str} {node : Str} (h : CanReachCycle g node) :
    ∃ b, edgeOf g node b ∧ CanReachCycle g b := by
  obtain ⟨a, h1, h2⟩ := h
  rcases Relation.ReflTransGen.cases_head h1 with h3 | ⟨b, hb, h4⟩
  · subst h3
    rcases Relation.TransGen.head'_iff.mp h2 with ⟨b, hb, h5⟩
    exact ⟨b, hb, node, h5, h2⟩
  · exact ⟨b, hb, a, h4, h2⟩

theorem dfsChildren_complete (g : Str → List Str) (u : List Str) (fuel : Nat)
    (rs2 : List Str)
    (hstep : ∀ (n : Str) (w : List Str), n ∈ u → freeCount u w + 1 ≤ fuel →
        NoEscape g w rs2 → (dfsNode g fuel n w rs2).1 = false →
        NoEscape g (dfsNode g fuel n w rs2).2 rs2 ∧
          ¬CanReachCycle g n) :
    ∀ (ns : List Str) (w : List Str), (∀ n ∈ ns, n ∈ u) → freeCount u w + 1 ≤ fuel →
      NoEscape g w rs2 →
      (dfsChildren (fun n v => dfsNode g fuel n v rs2) ns w).1 = false →
      NoEscape g (dfsChildren (fun n v => dfsNode g fuel n v rs2) ns w).2 rs2 ∧
        ∀ n ∈ ns, ¬CanReachCycle g n := by
  intro ns
  induction ns with
  | nil =>
    intro w _ _ hinv _
    refine ⟨hinv, ?_⟩
    intro n hn
    simp at hn
  | cons n rest ih =>
    intro w hns hfc hinv hfalse
    simp only [dfsChildren] at hfalse ⊢
    by_cases h1 : (dfsNode g fuel n w rs2).1
    · rw [if_pos h1] at hfalse
      rw [hfalse] at h1
      simp at h1
    · rw [if_neg h1] at hfalse ⊢
      have hn1 := hstep n w (hns n (by simp)) hfc hinv (by simpa using h1)
      have hmono : w ⊆ (dfsNode g fuel n w rs2).2 := dfsNode_visited_mono g fuel n w rs2
      have hfc2 : freeCount u (dfsNode g fuel n w rs2).2 + 1 ≤ fuel :=
        le_trans (by have := freeCount_mono (u := u) hmono; omega) hfc
      have hrest := ih (dfsNode g fuel n w rs2).2 (fun m hm => hns m (by simp [hm]))
        hfc2 hn1.1 hfalse
      refine ⟨hrest.1, ?_⟩
      intro m hm
      rcases List.mem_cons.mp hm with hm1 | hm2
      · subst hm1; exact hn1.2
      · exact hrest.2 m hm2

theorem dfsNode_complete (g : Str → List Str) (u : List Str)
    (hu : u.Nodup) (hg : ∀ x, ∀ y ∈ g x, y ∈ u) :
    ∀ (fuel : Nat) (node : Str) (v rs : List Str),
      node ∈ u →
      freeCount u v + 1 ≤ fuel →
      NoEscape g v rs →
      (dfsNode g fuel node v rs).1 = false →
      NoEscape g (dfsNode g fuel node v rs).2 rs ∧
        ¬CanReachCycle g node := by
  intro fuel
  induction fuel with
  | zero =>
    intro node v rs _ hfc _ _
    omega
  | succ fuel ih =>
    intro node v rs hnode hfc hinv hfalse
    simp only [dfsNode] at hfalse ⊢
    by_cases h1 : node ∈ rs
    · rw [if_pos h1] at hfalse
      simp at hfalse
    · rw [if_neg h1] at hfalse ⊢
      by_cases h2 : node ∈ v
      · rw [if_pos h2] at hfalse ⊢
        exact ⟨hinv, hinv node h2 h1⟩
      · rw [if_neg h2] at hfalse ⊢
        have hfc2 : freeCount u (node :: v) + 1 ≤ fuel := by
          have := freeCount_cons hu hnode h2
          omega
        have hinv2 : NoEscape g (node :: v) (node :: rs) := by
          intro x hx hxrs
          rcases List.mem_cons.mp hx with hx1 | hx2
          · exact absurd (hx1 ▸ List.mem_cons_self node rs) hxrs
          · exact hinv x hx2 (fun hcontra => hxrs (List.mem_cons_of_mem _ hcontra))
        have hch := dfsChildren_complete g u fuel (node :: rs)
          (fun n w hn hf hi hfl => ih n w (node :: rs) hn hf hi hfl)
          (g node) (node :: v) (fun n hn => hg node n hn) hfc2 hinv2 hfalse
        have hnocrc : ¬CanReachCycle g node := by
          intro hcrc
          obtain ⟨b, hb, hcrcb⟩ := crc_head hcrc
          exact hch.2 b hb hcrcb
        refine ⟨?_, hnocrc⟩
        intro x hx hxrs
        by_cases hxn : x = node
        · subst hxn; exact hnocrc
        · exact hch.1 x hx (by simp [hxn, hxrs])

theorem allNodes_nodup (tasks : List Task) : (allNodes tasks).Nodup :=
  List.nodup_dedup _

theorem dictGet_sub (tasks : List Task) :
    ∀ x, ∀ y ∈ dictGet tasks x, y ∈ allNodes tasks := by
  intro x y hy
  unfold dictGet at hy
  cases hf : tasks.reverse.find? (fun t => t.id == x) with
  | none => rw [hf] at hy; simp at hy
  | some t =>
    rw [hf] at hy
    have ht : t ∈ tasks := List.mem_reverse.mp (List.mem_of_find?_eq_some hf)
    unfold allNodes
    rw [List.mem_dedup, List.mem_append]
    right
    rw [List.mem_flatten]
    exact ⟨t.dependencies, List.mem_map_of_mem _ ht, hy⟩

theorem ids_sub_allNodes (tasks : List Task) :
    ∀ i ∈ tasks.map (fun t => t.id), i ∈ allNodes tasks := by
  intro i hi
  unfold allNodes
  rw [List.mem_dedup, List.mem_append]
  exact Or.inl hi

theorem hasCircularAux_complete (tasks : List Task) :
    ∀ (ids : List Str) (v : List Str),
      (∀ i ∈ ids, i ∈ allNodes tasks) →
      NoEscape (dictGet tasks) v [] →
      hasCircularAux tasks ids v = false →
      ∀ i ∈ ids, ¬CanReachCycle (dictGet tasks) i := by
  intro ids
  induction ids with
  | nil =>
    intro v _ _ _ i hi
    simp at hi
  | cons tid rest ih =>
    intro v hids hinv hfalse i hi
    simp only [hasCircularAux] at hfalse
    by_cases h1 : tid ∈ v
    · rw [if_pos h1] at hfalse
      rcases List.mem_cons.mp hi with hi1 | hi2
      · subst hi1
        exact hinv i h1 (by simp)
      · exact ih v (fun m hm => hids m (by simp [hm])) hinv hfalse i hi2
    · rw [if_neg h1] at hfalse
      by_cases h2 : (dfsNode (dictGet tasks) (fuelFor tasks) tid v []).1
      · rw [if_pos h2] at hfalse
        simp at hfalse
      · rw [if_neg h2] at hfalse
        have hdfs := dfsNode_complete (dictGet tasks) (allNodes tasks)
          (allNodes_nodup tasks) (dictGet_sub tasks) (fuelFor tasks) tid v []
          (hids tid (by simp))
          (by have := freeCount_le (allNodes tasks) v; unfold fuelFor; omega)
          hinv (by simpa using h2)
        rcases List.mem_cons.mp hi with hi1 | hi2
        · subst hi1; exact hdfs.2
        · exact ih (dfsNode (dictGet tasks) (fuelFor tasks) tid v []).2
            (fun m hm => hids m (by simp [hm])) hdfs.1 hfalse i hi2

theorem hasCircular_complete (tasks : List Task) (h : HasCycle (dictGet tasks)) :
    hasCircularDependencies tasks = true := by
  by_contra hc
  rw [Bool.not_eq_true] at hc
  unfold hasCircularDependencies at hc
  obtain ⟨a, ha⟩ := h
  obtain ⟨b, hb, _⟩ := Relation.TransGen.head'_iff.mp ha
  have hkey : a ∈ tasks.map (fun t => t.id) := edge_key hb
  have hnone := hasCircularAux_complete tasks (tasks.map (fun t => t.id)) []
    (ids_sub_allNodes tasks) (fun x hx => by simp at hx) hc a hkey
  exact hnone ⟨a, .refl, ha⟩

/-- C3: for every plan whose dependency graph (node = task id, edge =
recorded dependency of that id) has a cycle — in particular any cycle of
length at least two among existing task ids — validate returns
valid equal to false and its errors contain the circular-dependency
message. -/
theorem validate_flags_cycle (plan : Plan) (a : Str)
    (h : Relation.TransGen (edgeOf (dictGet plan.tasks)) a a) :
    (validatePlanFull plan).1.valid = false ∧
      circularMsg ∈ (validatePlanFull plan).1.errors := by
  have hcirc : hasCircularDependencies plan.tasks = true :=
    hasCircular_complete plan.tasks ⟨a, h⟩
  unfold validatePlanFull
  simp [hcirc]

/-- Witness for C3: the two-task plan in which task a depends on b and
task b depends on a is flagged circular. -/
theorem validate_flags_cycle_witness :
    (validatePlanFull cycPlan).1.valid = false ∧
      circularMsg ∈ (validatePlanFull cycPlan).1.errors :=
  validate_flags_cycle cycPlan "a".toList
    (Relation.TransGen.head
      (show edgeOf (dictGet cycPlan.tasks) "a".toList "b".toList from
        (by decide : "b".toList ∈ dictGet cycPlan.tasks "a".toList))
      (Relation.TransGen.single
        (show edgeOf (dictGet cycPlan.tasks) "b".toList "a".toList from
          (by decide : "a".toList ∈ dictGet cycPlan.tasks "b".toList))))

/-- C9: cycle detection is total (the embedding is a total function and
its fuel is proved sufficient), and it reports a cycle only when a real
cycle exists among ids of tasks of the plan — so a dangling dependency
string, having no outgoing edges, can never cause a cycle report. -/
theorem hasCircular_only_real_cycles (tasks : List Task) :
    hasCircularDependencies tasks = true →
      ∃ a, a ∈ tasks.map (fun t => t.id) ∧
        Relation.TransGen (edgeOf (dictGet tasks)) a a := by
  intro h
  obtain ⟨a, ha⟩ := hasCircularAux_sound tasks _ [] h
  obtain ⟨b, hb, _⟩ := Relation.TransGen.head'_iff.mp ha
  exact ⟨a, edge_key hb, ha⟩

/-- Witness for C9: on the concrete mutually-dependent two-task plan the
detector fires, and the theorem recovers a genuine cycle from that. -/
theorem hasCircular_only_real_cycles_witness :
    ∃ a, a ∈ cycPlan.tasks.map (fun t => t.id) ∧
      Relation.TransGen (edgeOf (dictGet cycPlan.tasks)) a a :=
  hasCircular_only_real_cycles cycPlan.tasks (by decide)

/-- C6: validation is a total function (so it terminates on every plan
and never escapes by an exception in the model) returning a result
record with a boolean valid flag, an errors list and a warnings list;
errors are data, and the valid flag is exactly the emptiness of the
errors list. -/
theorem validate_never_raises (plan : Plan) :
    ∃ r newPlan, validatePlanFull plan = (r, newPlan) ∧
      r.valid = r.errors.isEmpty := by
  refine ⟨(validatePlanFull plan).1, (validatePlanFull plan).2, rfl, ?_⟩
  unfold validatePlanFull
  by_cases hc : hasCircularDependencies plan.tasks <;> simp [hc]

/-- C7: validation may rewrite dependency lists but changes nothing
else: every other field of every task, the task order, and all the
plan-level fields are unchanged. -/
theorem validate_frame (plan : Plan) :
    (validatePlanFull plan).2.id = plan.id ∧
    (validatePlanFull plan).2.user_query = plan.user_query ∧
    (validatePlanFull plan).2.estimated_total_duration = plan.estimated_total_duration ∧
    (validatePlanFull plan).2.created_at = plan.created_at ∧
    (validatePlanFull plan).2.tasks.map (fun t =>
      (t.id, t.title, t.description, t.priority, t.status, t.agent_type,
       t.required_tools, t.estimated_duration, t.metadata)) =
      plan.tasks.map (fun t =>
      (t.id, t.title, t.description, t.priority, t.status, t.agent_type,
       t.required_tools, t.estimated_duration, t.metadata)) := by
  unfold validatePlanFull
  refine ⟨rfl, rfl, rfl, rfl, ?_⟩
  rw [List.map_map]
  apply List.map_congr_left
  intro t _
  rfl

/-- C8: get_ready_tasks returns exactly the pending tasks all of whose
dependency ids name some completed task of the same plan, in plan
order (stated as equality with the corresponding filter). -/
theorem getReadyTasks_spec (p : Plan) :
    getReadyTasks p = p.tasks.filter (fun t =>
      t.status == TaskStatus.pending &&
        t.dependencies.all (fun d =>
          p.tasks.any (fun t2 => t2.id == d && t2.status == TaskStatus.completed))) := by
  unfold getReadyTasks
  apply List.filter_congr
  intro t _
  by_cases hp : (t.status == TaskStatus.pending) = true
  · simp only [hp, Bool.true_and]
    rw [Bool.eq_iff_iff]
    simp only [List.all_eq_true, decide_eq_true_eq, List.any_eq_true,
      List.mem_map, List.mem_filter, Bool.and_eq_true, beq_iff_eq]
    constructor
    · intro h d hd
      obtain ⟨t2, ⟨ht2, hst⟩, hid⟩ := h d hd
      exact ⟨t2, ht2, hid, hst⟩
    · intro h d hd
      obtain ⟨t2, ht2, hid, hst⟩ := h d hd
      exact ⟨t2, ⟨ht2, hst⟩, hid⟩
  · simp only [Bool.not_eq_true] at hp
    simp [hp]

/-! ### Atomic plan construction -/

theorem except_bind_ok {α β : Type} {x : Except Str α} {f : α → Except Str β} {b : β}
    (h : (x >>= f) = .ok b) : ∃ a, x = .ok a ∧ f a = .ok b := by
  cases x with
  | error e => simp [Bind.bind, Except.bind] at h
  | ok a =>
    refine ⟨a, rfl, ?_⟩
    simpa [Bind.bind, Except.bind] using h

theorem mapM_parseTask_ok {l : List RawTask} {out : List TaskCreateRequest}
    (h : l.mapM parseTask = .ok out) : ∀ r ∈ l, ∃ y, parseTask r = .ok y := by
  induction l generalizing out with
  | nil => intro r hr; simp at hr
  | cons a as ih =>
    intro r hr
    rw [List.mapM_cons] at h
    obtain ⟨y, hy, h2⟩ := except_bind_ok h
    obtain ⟨ys, hys, _⟩ := except_bind_ok h2
    rcases List.mem_cons.mp hr with h3 | h3
    · subst h3; exact ⟨y, hy⟩
    · exact ih hys r h3

theorem parseTask_ok_not_malformed {r : RawTask} {y : TaskCreateRequest}
    (h : parseTask r = .ok y) : ¬RawMalformed r := by
  unfold parseTask at h
  intro hmal
  repeat' split at h
  all_goals first
    | (exact Except.noConfusion h)
    | (rcases hmal with hm | hm | hm | ⟨d2, hd2, hrange⟩ <;> simp_all <;> omega)

/-- C5: if any raw task is malformed (a required field missing, or a
duration outside 1..480 — in particular any non-positive duration),
plan construction returns an error and never an ok Plan: construction
is atomic build-or-fail. -/
theorem createPlan_atomic (planId createdAt userQuery : Str) (raw : RawPlannerResponse)
    (h : ∃ r ∈ raw.tasks, RawMalformed r) :
    ∃ e, createPlan planId createdAt userQuery raw = .error e := by
  obtain ⟨r, hr, hmal⟩ := h
  cases hcp : createPlan planId createdAt userQuery raw with
  | error e => exact ⟨e, rfl⟩
  | ok plan =>
    exfalso
    unfold createPlan at hcp
    cases hresp : parsePlannerResponse raw with
    | error e => rw [hresp] at hcp; simp at hcp
    | ok resp =>
      unfold parsePlannerResponse at hresp
      cases hmm : raw.tasks.mapM parseTask with
      | error e => rw [hmm] at hresp; simp at hresp
      | ok tcrs =>
        obtain ⟨y, hy⟩ := mapM_parseTask_ok hmm r hr
        exact parseTask_ok_not_malformed hy hmal

/-- Witness for C5: constructing a plan from a payload whose task lacks
a title yields an error. -/
theorem createPlan_atomic_witness :
    ∃ e, createPlan [] [] "q".toList c5Raw = .error e :=
  createPlan_atomic [] [] "q".toList c5Raw
    ⟨c5RawTask, by simp [c5Raw], Or.inl rfl⟩

/-! ### The two fuzzy-matching scenarios -/

/-- Counterexample to C1: on exactly the end-to-end scenario of the claim
(task 2 depends on the title-cased string) the built plan, after
validation, is reported invalid, and the dependency is kept verbatim
rather than being resolved to the slug. -/
theorem c1_counterexample :
    (validatePlanFull c1Plan).1.valid = false ∧
      (validatePlanFull c1Plan).2.tasks.map (fun t => t.dependencies) =
        [[], ["Retrieve Customer Data".toList]] := by decide

/-- Amended C1: build_plan slugs the two titles correctly, but the
title-cased dependency reference survives construction unresolved, and
validate then records an unresolved-dependency error for it and reports
the plan invalid (the normalization pass does not convert spaces to
hyphens, so the title-cased form matches nothing). -/
theorem c1_amended :
    c1Plan.tasks.map (fun t => t.id) =
        ["retrieve-customer-data".toList, "send-follow-up-email".toList] ∧
      (validatePlanFull c1Plan).1.valid = false ∧
      unresolvedMsg "Send follow-up email".toList "Retrieve Customer Data".toList ∈
        (validatePlanFull c1Plan).1.errors ∧
      (validatePlanFull c1Plan).2.tasks.map (fun t => t.dependencies) =
        [[], ["Retrieve Customer Data".toList]] := by decide

/-- Counterexample to C2: for the reference written exactly as the
claim words it (spaces and a possessive apostrophe), the normalization
pass matches nothing — an unresolved-dependency error is recorded, the
dependency is not rewritten, and the plan is invalid. -/
theorem c2_counterexample :
    (validatePlanFull (c2PlanWith c2RefRaw)).1.valid = false ∧
      (validatePlanFull (c2PlanWith c2RefRaw)).1.errors ≠ [] ∧
      (validatePlanFull (c2PlanWith c2RefRaw)).2.tasks.map (fun t => t.dependencies) =
        [[], [c2RefRaw]] := by decide

/-- Amended C2: for the hyphen-separated form of the same possessive
reference, the normalization pass (lower-casing, possessive-marker
stripping, hyphen handling, equality acceptance) does match the
canonical id, the dependency is rewritten to it, and no error is
recorded. -/
theorem c2_amended :
    (validatePlanFull (c2PlanWith c2RefSlug)).1.valid = true ∧
      (validatePlanFull (c2PlanWith c2RefSlug)).1.errors = [] ∧
      (validatePlanFull (c2PlanWith c2RefSlug)).2.tasks.map (fun t => t.dependencies) =
        [[], [acmeId]] := by decide

end SKO
